import Mathlib

/-!
Verification of the tag-resolution and streaming-decoration pipeline of the
`changelog` tool (`main.go`).  The definitions below are a shallow embedding
of `collectTags` and `writeChangelog`:

* commit identities (`plumbing.Hash`) are modelled as `Nat`;
* Go errors are modelled as `String` (`none`/`some e` in an `Option` stands
  for a `nil`/non-`nil` Go `error` value);
* the Go map `map[plumbing.Hash][]string` is modelled as a total function
  `Hash → List String` whose default value is `[]` (every key the Go code
  inserts carries a non-empty slice, so key presence coincides with a
  non-empty lookup);
* the repository handle is modelled by the data `collectTags` and the
  commit walk observe from it: the list of tag references, the outcome of
  `repo.TagObject`/`tag.Commit` per referenced object, and the sequence
  of commits the log iterator yields together with its terminating
  condition (EOF or an iteration error).
-/

set_option autoImplicit false

namespace Changelog

/-- Commit identity: stands for `plumbing.Hash` (a 20-byte content hash). -/
abbrev Hash := Nat

/-- Go `error` payload (compared only for equality by the pipeline). -/
abbrev GitError := String

/-- The part of `object.Commit` the pipeline reads: its hash and message. -/
structure Commit where
  hash : Hash
  message : String
deriving DecidableEq

/-- Hex rendering of a commit identity, modelling
`hex.EncodeToString(commit.Hash[:])` (40 lowercase hex digits). -/
def hexDigest (h : Hash) : String :=
  let ds := Nat.toDigits 16 h
  ⟨List.replicate (40 - ds.length) '0' ++ ds⟩

/-- The `DecoratedCommit` struct of `main.go`: the embedded commit, its
hex digest, and the tag names attached to it. -/
structure DecoratedCommit where
  commit : Commit
  hashHexDigest : String
  tags : List String
deriving DecidableEq

/-- Drops a leading pattern from a character list: `some` of the remainder
when the whole pattern matches, `none` otherwise. -/
def dropMatch : List Char → List Char → Option (List Char)
  | [], rest => some rest
  | _ :: _, [] => none
  | p :: ps, c :: cs => if c = p then dropMatch ps cs else none

/-- Models `strings.TrimPrefix(ref.Name().String(), "refs/tags/")`:
drop the leading `"refs/tags/"` namespace if present, else unchanged. -/
def bareName (s : String) : String :=
  match dropMatch "refs/tags/".data s.data with
  | some rest => ⟨rest⟩
  | none => s

/-- A tag reference: its full name (`ref.Name().String()`) and the hash it
points at (`ref.Hash()`). -/
structure TagRef where
  name : String
  hash : Hash
deriving DecidableEq

/-- Outcome of `tag.Commit()` on an annotated tag object: a commit hash,
`object.ErrUnsupportedObject` (the tag points at a tree or blob), or some
other error, in which case go-git returns a nil commit pointer. -/
inductive CommitDeref where
  | commit (h : Hash)
  | unsupported
  | otherBad (e : GitError)
deriving DecidableEq

/-- Outcome of `repo.TagObject(ref.Hash())`: an annotated tag object (with
the behaviour of its `Commit()` dereference), `plumbing.ErrObjectNotFound`
(a lightweight tag), or some other error. -/
inductive TagObjectResult where
  | annotated (d : CommitDeref)
  | notFound
  | otherBad (e : GitError)
deriving DecidableEq

/-- The repository data observed by `collectTags`: the tag references the
iterator yields (in order), the terminating condition of that iterator
(`none` = `io.EOF`, `some e` = an iteration error after the listed refs),
and the resolution behaviour of each referenced object. -/
structure Repo where
  tagRefs : List TagRef
  tagObject : Hash → TagObjectResult
  refsFinal : Option GitError

/-- Result of `collectTags`: the tag index, an error, or a Go runtime panic
(the nil-commit dereference `commit.Hash` that occurs when `tag.Commit()`
fails with an error other than `ErrUnsupportedObject`). -/
inductive CollectResult where
  | ok (idx : Hash → List String)
  | err (e : GitError)
  | panicked

/-- Models `tagsByCommit[commitHash] = append(tagsByCommit[commitHash], n)`. -/
def appendTag (idx : Hash → List String) (h : Hash) (n : String) : Hash → List String :=
  fun h2 => if h2 = h then idx h2 ++ [n] else idx h2

/-- The loop body of `collectTags` (`main.go` lines 66-95), one tag
reference at a time, threading the accumulated index. -/
def collectGo (tagObj : Hash → TagObjectResult) (fin : Option GitError) :
    List TagRef → (Hash → List String) → CollectResult
  | [], idx =>
    match fin with
    | none => .ok idx
    | some e => .err e
  | r :: rest, idx =>
    match tagObj r.hash with
    | .annotated d =>
      match d with
      | .unsupported => collectGo tagObj fin rest idx
      | .commit h => collectGo tagObj fin rest (appendTag idx h (bareName r.name))
      | .otherBad _ => .panicked
    | .notFound => collectGo tagObj fin rest (appendTag idx r.hash (bareName r.name))
    | .otherBad e => .err e

/-- `collectTags` (`main.go` lines 55-97). -/
def collectTags (repo : Repo) : CollectResult :=
  collectGo repo.tagObject repo.refsFinal repo.tagRefs (fun _ => [])

/-- Whether `collectTags` returned without error or panic. -/
def collectOk (repo : Repo) : Bool :=
  match collectTags repo with
  | .ok _ => true
  | _ => false

/-- The index produced by a successful `collectTags` (empty otherwise). -/
def collectIdx (repo : Repo) : Hash → List String :=
  match collectTags repo with
  | .ok idx => idx
  | _ => fun _ => []

/-- Whether a single tag reference resolves to the given commit: an
annotated tag whose dereference reaches that commit, or a lightweight tag
directly naming it. -/
def refResolvesTo (tagObj : Hash → TagObjectResult) (r : TagRef) (h : Hash) : Bool :=
  match tagObj r.hash with
  | .annotated (.commit h2) => h2 == h
  | .notFound => r.hash == h
  | _ => false

/-- Specification-side reference for the round-trip property: a direct
scan over all tag references collecting, in encounter order, the bare
names of those that resolve to the given commit. -/
def specTagScan (repo : Repo) (h : Hash) : List String :=
  (repo.tagRefs.filter (fun r => refResolvesTo repo.tagObject r h)).map
    (fun r => bareName r.name)

/-- Models the comma-ok lookup `_, hasTags := tagsByCommit[commit.Hash]`:
a key is present exactly when its (always non-empty) slice was appended. -/
def hasTags (idx : Hash → List String) (c : Commit) : Bool :=
  !((idx c.hash).isEmpty)

/-- Decoration of one walked commit (`main.go` lines 178-182). -/
def decorate (idx : Hash → List String) (c : Commit) : DecoratedCommit :=
  { commit := c, hashHexDigest := hexDigest c.hash, tags := idx c.hash }

/-- Number of tagged commits in a walked segment. -/
def countTagged (idx : Hash → List String) (l : List Commit) : Nat :=
  (l.filter (fun c => hasTags idx c)).length

/-- The effective revision cutoff (`main.go` lines 128-141): with a tag
filter and no explicit maximum, default to 1; otherwise keep the
caller-supplied maximum. -/
def effectiveMaxRevs (tag : String) (maxRevs : Int) : Int :=
  if tag = "" then maxRevs
  else if maxRevs = 0 then 1
  else maxRevs

/-- The producer loop of `writeChangelog` (`main.go` lines 168-196) in the
runs where the renderer never finishes early: the sequence of decorated
commits pushed onto the channel, threading `numTaggedCommits`. -/
def producerLoop (idx : Hash → List String) (K : Int) :
    List Commit → Nat → List DecoratedCommit
  | [], _ => []
  | c :: rest, n =>
    if 0 < K ∧ ((if hasTags idx c then n + 1 else n : Nat) : Int) > K then []
    else decorate idx c :: producerLoop idx K rest (if hasTags idx c then n + 1 else n)

/-- The full decorated sequence delivered to the renderer. -/
def producerDelivered (idx : Hash → List String) (K : Int)
    (commits : List Commit) : List DecoratedCommit :=
  producerLoop idx K commits 0

/-- The commit walk `repo.Log` yields: a commit list followed by either
normal exhaustion (`none` = `io.EOF`) or a traversal error. -/
structure Walk where
  commits : List Commit
  final : Option GitError

/-- Observable outcome of one `writeChangelog` run: the terminal error
value (`none` = nil), whether `close(cl.Commits)` ran, whether the final
`<-goErr` receive ran, and the decorated commits pushed to the channel. -/
structure RunOut where
  result : Option GitError
  closedChannel : Bool
  awaitedRenderer : Bool
  delivered : List DecoratedCommit
deriving DecidableEq

/-- The producer of `writeChangelog` run against a well-behaved renderer
(one that keeps draining the channel and reports its result `rr` only
after the channel closes, so the select always takes the push case). -/
def runWalkLoop (idx : Hash → List String) (K : Int) (fin rr : Option GitError) :
    List Commit → Nat → List DecoratedCommit → RunOut
  | [], _, acc =>
    match fin with
    | some e => ⟨some e, false, false, acc⟩
    | none => ⟨rr, true, true, acc⟩
  | c :: rest, n, acc =>
    if 0 < K ∧ ((if hasTags idx c then n + 1 else n : Nat) : Int) > K then ⟨rr, true, true, acc⟩
    else runWalkLoop idx K fin rr rest (if hasTags idx c then n + 1 else n)
      (acc ++ [decorate idx c])

/-- `writeChangelog` against a well-behaved renderer. -/
def runWalk (idx : Hash → List String) (K : Int) (walk : Walk)
    (rr : Option GitError) : RunOut :=
  runWalkLoop idx K walk.final rr walk.commits 0 []

/-- Resolution of one `select` (`main.go` lines 189-195) against a
renderer that stops after `M` reads: `gas` is how many more reads the
renderer will perform (`M - reads`).  While the channel is full
(occupancy `p - reads` at capacity 32) and the renderer is still reading,
the blocked push waits for the next consumer read; once the renderer has
finished, `goErr` is ready and `race` decides the select when the push is
also possible.  Returns `true` when the select takes the `goErr` case. -/
def selectGoErrAux (p : Nat) (race : Bool) : Nat → Nat → Bool
  | 0, reads => if p - reads < 32 then race else true
  | gas + 1, reads =>
    if p - reads < 32 then false
    else selectGoErrAux p race gas (reads + 1)

/-- Select resolution at a push attempt with `p` commits already pushed,
`reads` commits already consumed, against a renderer stopping at `M`. -/
def selectGoErr (M p : Nat) (race : Bool) (reads : Nat) : Bool :=
  selectGoErrAux p race (M - reads) reads

/-- The producer of `writeChangelog` run against a renderer that consumes
`M` commits and then terminates, sending `rr` on `goErr`.  `sched p`
gives the number of commits the renderer has consumed when the producer
reaches its `p`-th select (clamped to the possible range), and `race p`
resolves the select when both cases are ready.  Every branch of the loop
resolves (the renderer can always read from a full channel until it
finishes, after which `goErr` is ready), so the producer never blocks
forever; the returned value is the terminal result of `writeChangelog`. -/
def runEarlyLoop (idx : Hash → List String) (K : Int) (M : Nat)
    (rr : Option GitError) (sched : Nat → Nat) (race : Nat → Bool) :
    List Commit → Nat → Nat → Option GitError
  | [], _, _ => rr
  | c :: rest, n, p =>
    if 0 < K ∧ ((if hasTags idx c then n + 1 else n : Nat) : Int) > K then rr
    else if selectGoErr M p (race p) (min (min (sched p) M) p) then rr
    else runEarlyLoop idx K M rr sched race rest (if hasTags idx c then n + 1 else n) (p + 1)

/-- `writeChangelog` (walk ending in normal exhaustion) against an
early-terminating renderer. -/
def runEarly (idx : Hash → List String) (K : Int) (commits : List Commit)
    (M : Nat) (rr : Option GitError) (sched : Nat → Nat)
    (race : Nat → Bool) : Option GitError :=
  runEarlyLoop idx K M rr sched race commits 0 0

/-- A concrete commit with the given hash. -/
def cm (h : Hash) : Commit :=
  ⟨h, "commit message"⟩

/-- The spec example repository: commits with hashes 1 (oldest), 2, 3
(newest); one lightweight tag `v1.0` on commit 3. -/
def repo3 : Repo :=
  ⟨[⟨"refs/tags/v1.0", 3⟩], fun _ => .notFound, none⟩

/-- The walk of `repo3` in reverse-chronological order. -/
def walk3 : Walk :=
  ⟨[cm 3, cm 2, cm 1], none⟩

/-!  Helper lemmas shared by the claim theorems. -/

theorem collectGo_ok_scan (tagObj : Hash → TagObjectResult) (fin : Option GitError) :
    ∀ (refs : List TagRef) (acc idx : Hash → List String),
      collectGo tagObj fin refs acc = .ok idx →
      ∀ h, idx h = acc h ++
        (refs.filter (fun r => refResolvesTo tagObj r h)).map (fun r => bareName r.name) := by
  intro refs
  induction refs with
  | nil =>
    intro acc idx hok h
    cases hfin : fin with
    | none =>
      rw [hfin] at hok
      simp only [collectGo] at hok
      injection hok with h2
      simp [h2]
    | some e =>
      rw [hfin] at hok
      simp only [collectGo] at hok
      exact CollectResult.noConfusion hok
  | cons r rest ih =>
    intro acc idx hok h
    cases hobj : tagObj r.hash with
    | annotated d =>
      cases d with
      | commit h2 =>
        simp only [collectGo, hobj] at hok
        have hidx := ih _ _ hok h
        have hpred : refResolvesTo tagObj r h = (h2 == h) := by
          simp [refResolvesTo, hobj]
        rw [hidx, List.filter_cons, hpred]
        by_cases heq : h2 = h
        · subst heq
          simp [appendTag]
        · have hbeq : (h2 == h) = false := by simp [heq]
          simp [appendTag, hbeq, Ne.symm heq]
      | unsupported =>
        simp only [collectGo, hobj] at hok
        have hidx := ih _ _ hok h
        have hpred : refResolvesTo tagObj r h = false := by
          simp [refResolvesTo, hobj]
        rw [hidx, List.filter_cons, hpred]
        simp
      | otherBad e =>
        simp only [collectGo, hobj] at hok
        exact CollectResult.noConfusion hok
    | notFound =>
      simp only [collectGo, hobj] at hok
      have hidx := ih _ _ hok h
      have hpred : refResolvesTo tagObj r h = (r.hash == h) := by
        simp [refResolvesTo, hobj]
      rw [hidx, List.filter_cons, hpred]
      by_cases heq : r.hash = h
      · have hbeq : (r.hash == h) = true := by simp [heq]
        simp [appendTag, hbeq, heq]
      · have hbeq : (r.hash == h) = false := by simp [heq]
        simp [appendTag, hbeq, Ne.symm heq]
    | otherBad e =>
      simp only [collectGo, hobj] at hok
      exact CollectResult.noConfusion hok

theorem collectOk_exists (repo : Repo) (hok : collectOk repo = true) :
    ∃ idx, collectTags repo = .ok idx := by
  unfold collectOk at hok
  cases h2 : collectTags repo with
  | ok idx => exact ⟨idx, rfl⟩
  | err e => rw [h2] at hok; exact Bool.noConfusion hok
  | panicked => rw [h2] at hok; exact Bool.noConfusion hok

theorem collectGo_skip (tagObj : Hash → TagObjectResult) (fin : Option GitError)
    (t : TagRef) (ht : tagObj t.hash = .annotated .unsupported) :
    ∀ (l1 l2 : List TagRef) (acc : Hash → List String),
      collectGo tagObj fin (l1 ++ t :: l2) acc = collectGo tagObj fin (l1 ++ l2) acc := by
  intro l1
  induction l1 with
  | nil =>
    intro l2 acc
    simp only [List.nil_append, collectGo, ht]
  | cons r rest ih =>
    intro l2 acc
    simp only [List.cons_append, collectGo]
    cases hobj : tagObj r.hash with
    | annotated d => cases d <;> simp [hobj, ih]
    | notFound => simp [hobj, ih]
    | otherBad e => simp [hobj]

theorem countTagged_cons_pos (idx : Hash → List String) (c : Commit) (l : List Commit)
    (h : hasTags idx c = true) :
    countTagged idx (c :: l) = countTagged idx l + 1 := by
  simp [countTagged, List.filter_cons, h]

theorem countTagged_cons_neg (idx : Hash → List String) (c : Commit) (l : List Commit)
    (h : hasTags idx c = false) :
    countTagged idx (c :: l) = countTagged idx l := by
  simp [countTagged, List.filter_cons, h]

theorem producerLoop_nonpos (idx : Hash → List String) (K : Int) (hK : K ≤ 0) :
    ∀ (l : List Commit) (n : Nat), producerLoop idx K l n = l.map (decorate idx) := by
  intro l
  induction l with
  | nil => intro n; rfl
  | cons c rest ih =>
    intro n
    have hnot : ¬(0 < K ∧ ((if hasTags idx c then n + 1 else n : Nat) : Int) > K) :=
      fun hcon => absurd hcon.1 (not_lt.mpr hK)
    simp only [producerLoop, List.map_cons, if_neg hnot]
    exact congrArg _ (ih _)

theorem producerLoop_pos (idx : Hash → List String) (K : Int) (hK : 0 < K) :
    ∀ (l : List Commit) (n : Nat), (n : Int) ≤ K →
      ∃ m, m ≤ l.length ∧
        producerLoop idx K l n = (l.take m).map (decorate idx) ∧
        (n : Int) + countTagged idx (l.take m) ≤ K ∧
        (m < l.length → K < (n : Int) + countTagged idx (l.take (m + 1))) := by
  intro l
  induction l with
  | nil =>
    intro n hn
    exact ⟨0, by simp, by simp [producerLoop], by simpa [countTagged] using hn, by simp⟩
  | cons c rest ih =>
    intro n hn
    cases hht : hasTags idx c with
    | true =>
      have hif : (if hasTags idx c then n + 1 else n) = n + 1 := by rw [hht]; rfl
      by_cases hbr : ((n + 1 : Nat) : Int) > K
      · refine ⟨0, by simp, ?_, ?_, ?_⟩
        · simp only [producerLoop, hif]
          rw [if_pos ⟨hK, hbr⟩]
          simp
        · simpa [countTagged] using hn
        · intro _
          have h1 : countTagged idx ((c :: rest).take 1) = 1 := by
            simp [countTagged, List.filter_cons, hht]
          rw [zero_add, h1]
          simpa using hbr
      · push_neg at hbr
        obtain ⟨m, hml, heq, hcnt, hmax⟩ := ih (n + 1) (by exact_mod_cast hbr)
        refine ⟨m + 1, by simpa using Nat.succ_le_succ hml, ?_, ?_, ?_⟩
        · simp only [producerLoop, hif]
          rw [if_neg (fun hcon => absurd hcon.2 (not_lt.mpr (by exact_mod_cast hbr)))]
          rw [List.take_succ_cons, List.map_cons, heq]
        · rw [List.take_succ_cons, countTagged_cons_pos _ _ _ hht]
          push_cast at hcnt ⊢
          omega
        · intro hlt
          have hm : m < rest.length := by simpa using Nat.lt_of_succ_lt_succ hlt
          have hx := hmax hm
          rw [List.take_succ_cons, countTagged_cons_pos _ _ _ hht]
          push_cast at hx ⊢
          omega
    | false =>
      have hif : (if hasTags idx c then n + 1 else n) = n := by rw [hht]; rfl
      obtain ⟨m, hml, heq, hcnt, hmax⟩ := ih n hn
      refine ⟨m + 1, by simpa using Nat.succ_le_succ hml, ?_, ?_, ?_⟩
      · simp only [producerLoop, hif]
        rw [if_neg (fun hcon => absurd hcon.2 (not_lt.mpr hn))]
        rw [List.take_succ_cons, List.map_cons, heq]
      · rw [List.take_succ_cons, countTagged_cons_neg _ _ _ hht]
        exact hcnt
      · intro hlt
        have hm : m < rest.length := by simpa using Nat.lt_of_succ_lt_succ hlt
        have hx := hmax hm
        rw [List.take_succ_cons, countTagged_cons_neg _ _ _ hht]
        exact hx

theorem runWalkLoop_delivered (idx : Hash → List String) (K : Int)
    (fin rr : Option GitError) :
    ∀ (l : List Commit) (n : Nat) (acc : List DecoratedCommit),
      (runWalkLoop idx K fin rr l n acc).delivered = acc ++ producerLoop idx K l n := by
  intro l
  induction l with
  | nil => intro n acc; cases fin <;> simp [runWalkLoop, producerLoop]
  | cons c rest ih =>
    intro n acc
    cases hht : hasTags idx c with
    | true =>
      have hif : (if hasTags idx c then n + 1 else n) = n + 1 := by rw [hht]; rfl
      simp only [runWalkLoop, producerLoop, hif]
      by_cases hc : 0 < K ∧ ((n + 1 : Nat) : Int) > K
      · rw [if_pos hc, if_pos hc]
        simp
      · rw [if_neg hc, if_neg hc, ih]
        simp
    | false =>
      have hif : (if hasTags idx c then n + 1 else n) = n := by rw [hht]; rfl
      simp only [runWalkLoop, producerLoop, hif]
      by_cases hc : 0 < K ∧ ((n : Nat) : Int) > K
      · rw [if_pos hc, if_pos hc]
        simp
      · rw [if_neg hc, if_neg hc, ih]
        simp

theorem runWalkLoop_result_none (idx : Hash → List String) (K : Int)
    (rr : Option GitError) :
    ∀ (l : List Commit) (n : Nat) (acc : List DecoratedCommit),
      (runWalkLoop idx K none rr l n acc).result = rr := by
  intro l
  induction l with
  | nil => intro n acc; rfl
  | cons c rest ih =>
    intro n acc
    cases hht : hasTags idx c with
    | true =>
      have hif : (if hasTags idx c then n + 1 else n) = n + 1 := by rw [hht]; rfl
      simp only [runWalkLoop, hif]
      by_cases hc : 0 < K ∧ ((n + 1 : Nat) : Int) > K
      · rw [if_pos hc]
      · rw [if_neg hc, ih]
    | false =>
      have hif : (if hasTags idx c then n + 1 else n) = n := by rw [hht]; rfl
      simp only [runWalkLoop, hif]
      by_cases hc : 0 < K ∧ ((n : Nat) : Int) > K
      · rw [if_pos hc]
      · rw [if_neg hc, ih]

theorem runWalkLoop_iterError (idx : Hash → List String) (K : Int) (e : GitError)
    (rr : Option GitError) :
    ∀ (l : List Commit) (n : Nat) (acc : List DecoratedCommit),
      (K ≤ 0 ∨ (n : Int) + countTagged idx l ≤ K) →
      runWalkLoop idx K (some e) rr l n acc
        = ⟨some e, false, false, acc ++ l.map (decorate idx)⟩ := by
  intro l
  induction l with
  | nil => intro n acc hcut; simp [runWalkLoop]
  | cons c rest ih =>
    intro n acc hcut
    cases hht : hasTags idx c with
    | true =>
      have hcnt : countTagged idx (c :: rest) = countTagged idx rest + 1 :=
        countTagged_cons_pos _ _ _ hht
      have hnb : ¬(0 < K ∧ ((n + 1 : Nat) : Int) > K) := by
        rcases hcut with hK | hle
        · exact fun hcon => absurd hcon.1 (not_lt.mpr hK)
        · rw [hcnt] at hle
          push_cast at hle
          intro hcon
          have := hcon.2
          push_cast at this
          omega
      have hcut2 : K ≤ 0 ∨ ((n + 1 : Nat) : Int) + countTagged idx rest ≤ K := by
        rcases hcut with hK | hle
        · exact Or.inl hK
        · right
          rw [hcnt] at hle
          push_cast at hle ⊢
          omega
      have hif : (if hasTags idx c then n + 1 else n) = n + 1 := by rw [hht]; rfl
      simp only [runWalkLoop, hif]
      rw [if_neg hnb, ih _ _ hcut2]
      simp
    | false =>
      have hcnt : countTagged idx (c :: rest) = countTagged idx rest :=
        countTagged_cons_neg _ _ _ hht
      have hnb : ¬(0 < K ∧ ((n : Nat) : Int) > K) := by
        rcases hcut with hK | hle
        · exact fun hcon => absurd hcon.1 (not_lt.mpr hK)
        · rw [hcnt] at hle
          intro hcon
          have := hcon.2
          omega
      have hcut2 : K ≤ 0 ∨ ((n : Nat) : Int) + countTagged idx rest ≤ K := by
        rcases hcut with hK | hle
        · exact Or.inl hK
        · right
          rw [hcnt] at hle
          exact hle
      have hif : (if hasTags idx c then n + 1 else n) = n := by rw [hht]; rfl
      simp only [runWalkLoop, hif]
      rw [if_neg hnb, ih _ _ hcut2]
      simp

theorem runEarlyLoop_result (idx : Hash → List String) (K : Int) (M : Nat)
    (rr : Option GitError) (sched : Nat → Nat) (race : Nat → Bool) :
    ∀ (l : List Commit) (n p : Nat), runEarlyLoop idx K M rr sched race l n p = rr := by
  intro l
  induction l with
  | nil => intro n p; rfl
  | cons c rest ih =>
    intro n p
    cases hht : hasTags idx c with
    | true =>
      have hif : (if hasTags idx c then n + 1 else n) = n + 1 := by rw [hht]; rfl
      simp only [runEarlyLoop, hif]
      by_cases hc : 0 < K ∧ ((n + 1 : Nat) : Int) > K
      · rw [if_pos hc]
      · rw [if_neg hc]
        by_cases hs : selectGoErr M p (race p) (min (min (sched p) M) p) = true
        · rw [if_pos hs]
        · rw [if_neg hs, ih]
    | false =>
      have hif : (if hasTags idx c then n + 1 else n) = n := by rw [hht]; rfl
      simp only [runEarlyLoop, hif]
      by_cases hc : 0 < K ∧ ((n : Nat) : Int) > K
      · rw [if_pos hc]
      · rw [if_neg hc]
        by_cases hs : selectGoErr M p (race p) (min (min (sched p) M) p) = true
        · rw [if_pos hs]
        · rw [if_neg hs, ih]

/-!  Claim theorems. -/

/-- C1: for a configured cutoff K, the decorated sequence delivered to the
renderer is the sequence the producer loop pushes; the walk ending in EOF
terminates without error (the terminal result is the renderer's); with
K = 0 all walked commits are delivered; with K > 0 the delivered sequence
is exactly the maximal prefix of the decorated walk whose tagged-commit
count stays at most K — the commit that would push the counter past K is
never published. -/
theorem c1_revision_cutoff (idx : Hash → List String) (walk : Walk)
    (rr : Option GitError) (K : Int) :
    (runWalk idx K walk rr).delivered = producerDelivered idx K walk.commits
    ∧ (walk.final = none → (runWalk idx K walk rr).result = rr)
    ∧ (K = 0 → producerDelivered idx K walk.commits = walk.commits.map (decorate idx))
    ∧ (0 < K → ∃ m, m ≤ walk.commits.length
        ∧ producerDelivered idx K walk.commits = (walk.commits.take m).map (decorate idx)
        ∧ (countTagged idx (walk.commits.take m) : Int) ≤ K
        ∧ (m < walk.commits.length →
            K < (countTagged idx (walk.commits.take (m + 1)) : Int))) := by
  refine ⟨?_, ?_, ?_, ?_⟩
  · rw [runWalk, runWalkLoop_delivered]
    rfl
  · intro hfin
    rw [runWalk, hfin, runWalkLoop_result_none]
  · intro hK0
    subst hK0
    exact producerLoop_nonpos idx 0 le_rfl walk.commits 0
  · intro hKpos
    obtain ⟨m, h1, h2, h3, h4⟩ :=
      producerLoop_pos idx K hKpos walk.commits 0 (by exact_mod_cast hKpos.le)
    refine ⟨m, h1, h2, ?_, ?_⟩
    · simpa using h3
    · intro hm
      simpa using h4 hm

/-- Witness for C1 at the example repository (K = 0 and K = 1). -/
theorem c1_witness :
    producerDelivered (collectIdx repo3) 0 walk3.commits
      = walk3.commits.map (decorate (collectIdx repo3))
    ∧ (runWalk (collectIdx repo3) 0 walk3 none).result = none
    ∧ ∃ m, m ≤ walk3.commits.length
        ∧ producerDelivered (collectIdx repo3) 1 walk3.commits
            = (walk3.commits.take m).map (decorate (collectIdx repo3))
        ∧ (countTagged (collectIdx repo3) (walk3.commits.take m) : Int) ≤ 1
        ∧ (m < walk3.commits.length →
            1 < (countTagged (collectIdx repo3) (walk3.commits.take (m + 1)) : Int)) :=
  ⟨(c1_revision_cutoff (collectIdx repo3) walk3 none 0).2.2.1 rfl,
   (c1_revision_cutoff (collectIdx repo3) walk3 none 0).2.1 rfl,
   (c1_revision_cutoff (collectIdx repo3) walk3 none 1).2.2.2 (by decide)⟩

/-- C2: with a tag filter and caller-supplied maximum 0, the effective
cutoff is 1; in every other case it equals the caller-supplied maximum;
and an effective cutoff of 0 means unlimited (the whole walk is
delivered). -/
theorem c2_effective_cutoff (tag : String) (mr : Int) (idx : Hash → List String)
    (l : List Commit) :
    (tag ≠ "" ∧ mr = 0 → effectiveMaxRevs tag mr = 1)
    ∧ (¬(tag ≠ "" ∧ mr = 0) → effectiveMaxRevs tag mr = mr)
    ∧ (effectiveMaxRevs tag mr = 0 →
        producerDelivered idx (effectiveMaxRevs tag mr) l = l.map (decorate idx)) := by
  refine ⟨?_, ?_, ?_⟩
  · intro ⟨htag, hmr⟩
    simp [effectiveMaxRevs, htag, hmr]
  · intro hnot
    by_cases htag : tag = ""
    · simp [effectiveMaxRevs, htag]
    · have hmr : ¬(mr = 0) := fun hmr => hnot ⟨htag, hmr⟩
      simp [effectiveMaxRevs, htag, hmr]
  · intro h0
    rw [h0]
    exact producerLoop_nonpos idx 0 le_rfl l 0

/-- Witness for C2 in all three branches. -/
theorem c2_witness :
    effectiveMaxRevs "v1.0" 0 = 1
    ∧ effectiveMaxRevs "" 5 = 5
    ∧ producerDelivered (collectIdx repo3) (effectiveMaxRevs "" 0) walk3.commits
        = walk3.commits.map (decorate (collectIdx repo3)) :=
  ⟨(c2_effective_cutoff "v1.0" 0 (collectIdx repo3) walk3.commits).1 (by decide),
   (c2_effective_cutoff "" 5 (collectIdx repo3) walk3.commits).2.1 (by decide),
   (c2_effective_cutoff "" 0 (collectIdx repo3) walk3.commits).2.2 (by decide)⟩

/-- C3 counterexample: for the example repository (commits 1, 2, 3 with
only commit 3 tagged `v1.0`), tag filter `v1.0` and no explicit maximum,
the sequence delivered to the renderer is NOT just the tagged commit: the
cutoff only stops the walk at a second tag boundary, which never occurs. -/
theorem c3_counterexample :
    ¬ ((runWalk (collectIdx repo3) (effectiveMaxRevs "v1.0" 0) walk3 none).delivered
        = [decorate (collectIdx repo3) (cm 3)]) := by
  decide

/-- C3 amended: with tag filter `v1.0` and no explicit maximum the
effective cutoff defaults to 1, and the delivered sequence contains all
three commits in walk order — commit 3 decorated with `v1.0`, commits 2
and 1 undecorated — because every commit belongs to the single (first)
tag boundary and no second boundary ever triggers the stop. -/
theorem c3_amended_delivery :
    effectiveMaxRevs "v1.0" 0 = 1
    ∧ (runWalk (collectIdx repo3) (effectiveMaxRevs "v1.0" 0) walk3 none).delivered
        = [decorate (collectIdx repo3) (cm 3), decorate (collectIdx repo3) (cm 2),
           decorate (collectIdx repo3) (cm 1)]
    ∧ (decorate (collectIdx repo3) (cm 3)).tags = ["v1.0"]
    ∧ (decorate (collectIdx repo3) (cm 2)).tags = []
    ∧ (decorate (collectIdx repo3) (cm 1)).tags = [] := by
  refine ⟨rfl, by decide, rfl, rfl, rfl⟩

/-- C4: if the renderer terminates with an error after consuming M of the
decorated commits, the terminal result of the run equals that renderer
error, for every consumption schedule and every resolution of the select
race — and the producer terminates (the run model is a total function:
every blocked push resolves, because the renderer keeps draining a full
channel until it finishes, after which the `goErr` branch is ready). -/
theorem c4_renderer_error (idx : Hash → List String) (K : Int)
    (commits : List Commit) (M : Nat) (e : GitError)
    (sched : Nat → Nat) (race : Nat → Bool)
    (_hM : M < (producerDelivered idx K commits).length) :
    runEarly idx K commits M (some e) sched race = some e :=
  runEarlyLoop_result idx K M (some e) sched race commits 0 0

/-- Witness for C4: renderer fails immediately (M = 0) on a one-commit
walk; the run returns the renderer's error. -/
theorem c4_witness :
    0 < (producerDelivered (fun _ => []) 0 [cm 1]).length
    ∧ runEarly (fun _ => []) 0 [cm 1] 0 (some "render failed") (fun _ => 0)
        (fun _ => true) = some "render failed" :=
  ⟨by decide,
   c4_renderer_error (fun _ => []) 0 [cm 1] 0 "render failed" (fun _ => 0)
     (fun _ => true) (by decide)⟩

/-- C5 at the failing input: a renderer that terminates successfully
(sending a nil error) after consuming none of the one decorated commit.
The run's terminal result is `none` — success — although a commit
remained unpublished, contradicting the claim that such a run always
ends in a protocol-violation error. -/
theorem c5_success_leak :
    runEarly (fun _ => []) 0 [cm 1] 0 none (fun _ => 0) (fun _ => true) = none
    ∧ (producerDelivered (fun _ => []) 0 [cm 1]).length = 1 := by
  refine ⟨rfl, rfl⟩

/-- C6: an annotated tag whose dereference reports a non-commit target
(`ErrUnsupportedObject`) contributes nothing: resolving the reference
list with the tag present gives exactly the result of resolving it with
the tag absent, whatever surrounds it. -/
theorem c6_skip_non_commit (tagObj : Hash → TagObjectResult) (fin : Option GitError)
    (l1 l2 : List TagRef) (t : TagRef)
    (ht : tagObj t.hash = .annotated .unsupported) :
    collectTags ⟨l1 ++ t :: l2, tagObj, fin⟩ = collectTags ⟨l1 ++ l2, tagObj, fin⟩ :=
  collectGo_skip tagObj fin t ht l1 l2 (fun _ => [])

/-- Witness for C6: a single non-commit annotated tag resolves to the
same (empty) index as no tags at all. -/
theorem c6_witness :
    collectTags ⟨[⟨"refs/tags/skipme", 5⟩], fun _ => .annotated .unsupported, none⟩
      = collectTags ⟨[], fun _ => .annotated .unsupported, none⟩ :=
  c6_skip_non_commit (fun _ => .annotated .unsupported) none [] []
    ⟨"refs/tags/skipme", 5⟩ rfl

/-- C7: a lightweight tag reference (its own target hash is the commit)
contributes its bare name to that commit's index entry exactly once,
given the git invariant that tag reference names are distinct. -/
theorem c7_lightweight_once (repo : Repo) (t : TagRef)
    (hmem : t ∈ repo.tagRefs)
    (hlight : repo.tagObject t.hash = .notFound)
    (hnodup : (repo.tagRefs.map (fun r => bareName r.name)).Nodup)
    (hok : collectOk repo = true) :
    ((collectIdx repo) t.hash).count (bareName t.name) = 1 := by
  obtain ⟨idx, hcol⟩ := collectOk_exists repo hok
  have hIdx : collectIdx repo = idx := by
    unfold collectIdx
    rw [hcol]
  have hscan := collectGo_ok_scan repo.tagObject repo.refsFinal repo.tagRefs
    (fun _ => []) idx hcol t.hash
  rw [hIdx, hscan, List.nil_append]
  have hsub : ((repo.tagRefs.filter fun r => refResolvesTo repo.tagObject r t.hash).map
        (fun r => bareName r.name)).Sublist
      (repo.tagRefs.map (fun r => bareName r.name)) :=
    (List.filter_sublist repo.tagRefs).map _
  have hnd := hnodup.sublist hsub
  have hmem2 : bareName t.name ∈
      (repo.tagRefs.filter fun r => refResolvesTo repo.tagObject r t.hash).map
        (fun r => bareName r.name) := by
    refine List.mem_map_of_mem _ (List.mem_filter.mpr ⟨hmem, ?_⟩)
    simp [refResolvesTo, hlight]
  exact List.count_eq_one_of_mem hnd hmem2

/-- Witness for C7 at the example repository. -/
theorem c7_witness :
    ((collectIdx repo3) 3).count (bareName "refs/tags/v1.0") = 1 :=
  c7_lightweight_once repo3 ⟨"refs/tags/v1.0", 3⟩ (by decide) rfl (by decide) rfl

/-- C8 at the failing input: an annotated tag whose dereference to a
commit fails with an error other than `ErrUnsupportedObject`.  The code
does not return the originating error; it reads `commit.Hash` from the
nil commit pointer go-git returned alongside the error, a runtime panic,
modelled as the distinguished `panicked` outcome. -/
theorem c8_deref_panic :
    collectTags ⟨[⟨"refs/tags/v2", 7⟩],
        fun _ => .annotated (.otherBad "commit object unreadable"), none⟩
      = CollectResult.panicked := rfl

/-- C9: round-trip — for every walked commit, the tag list on its
decoration equals, in encounter order, the bare names of exactly the tag
references a direct scan finds resolving to that commit. -/
theorem c9_round_trip (repo : Repo) (c : Commit) (hok : collectOk repo = true) :
    (decorate (collectIdx repo) c).tags = specTagScan repo c.hash := by
  obtain ⟨idx, hcol⟩ := collectOk_exists repo hok
  have hIdx : collectIdx repo = idx := by
    unfold collectIdx
    rw [hcol]
  have hscan := collectGo_ok_scan repo.tagObject repo.refsFinal repo.tagRefs
    (fun _ => []) idx hcol c.hash
  rw [List.nil_append] at hscan
  simp only [decorate, hIdx, specTagScan]
  exact hscan

/-- Witness for C9 at the example repository. -/
theorem c9_witness :
    (decorate (collectIdx repo3) (cm 3)).tags = specTagScan repo3 3 :=
  c9_round_trip repo3 (cm 3) rfl

/-- C10: when the walk iterator fails mid-sequence (and the cutoff has
not already stopped the walk, so the error is actually reached), the run
returns the traversal error immediately: the channel is never closed and
the renderer's terminal result is never awaited. -/
theorem c10_walk_error (idx : Hash → List String) (K : Int) (walk : Walk)
    (rr : Option GitError) (e : GitError)
    (hfin : walk.final = some e)
    (hcut : K ≤ 0 ∨ (countTagged idx walk.commits : Int) ≤ K) :
    (runWalk idx K walk rr).result = some e
    ∧ (runWalk idx K walk rr).closedChannel = false
    ∧ (runWalk idx K walk rr).awaitedRenderer = false := by
  have hrun := runWalkLoop_iterError idx K e rr walk.commits 0 []
    (by simpa using hcut)
  rw [runWalk, hfin, hrun]
  exact ⟨rfl, rfl, rfl⟩

/-- Witness for C10: a one-commit walk ending in an iteration error. -/
theorem c10_witness :
    (runWalk (fun _ => []) 0 ⟨[cm 1], some "iteration failed"⟩ none).result
        = some "iteration failed"
    ∧ (runWalk (fun _ => []) 0 ⟨[cm 1], some "iteration failed"⟩ none).closedChannel
        = false
    ∧ (runWalk (fun _ => []) 0 ⟨[cm 1], some "iteration failed"⟩ none).awaitedRenderer
        = false :=
  c10_walk_error (fun _ => []) 0 ⟨[cm 1], some "iteration failed"⟩ none
    "iteration failed" rfl (Or.inl (by decide))

end Changelog
